import Mathlib

/-!
Verification of the transient reduced-basis evaluation header
(src/libmesh/include/systems/transient_rb_evaluation.h).

Modelling conventions:
- The scalar types Real and Number of the source are modelled as the
  rationals, i.e. exact arithmetic.
- A libmesh_assert precondition is modelled by an Option-valued function:
  a call returning none is a fatal precondition failure, a call returning
  some is an accepted call.
- Member functions of a class become functions taking the object state and
  returning the updated state.
-/

/-- State of the class TemporalDiscretization: the private members
_delta_t, _euler_theta, _current_time_step and _n_time_steps. -/
structure TemporalDiscretization where
  delta_t : ℚ
  euler_theta : ℚ
  current_time_step : ℕ
  n_time_steps : ℕ
deriving DecidableEq, Repr

/-- The default constructor of TemporalDiscretization: every member is
zero-initialised (lines 52-57 of the header). -/
def defaultTemporalDiscretization : TemporalDiscretization :=
  { delta_t := 0, euler_theta := 0, current_time_step := 0, n_time_steps := 0 }

/-- Accessor get_delta_t. -/
def get_delta_t (td : TemporalDiscretization) : ℚ := td.delta_t

/-- Setter set_delta_t: the source body is a bare assignment, it performs
no assertion. -/
def set_delta_t (td : TemporalDiscretization) (delta_t_in : ℚ) :
    TemporalDiscretization :=
  { td with delta_t := delta_t_in }

/-- Accessor get_euler_theta. -/
def get_euler_theta (td : TemporalDiscretization) : ℚ := td.euler_theta

/-- Setter set_euler_theta: the source asserts
0. <= euler_theta_in && euler_theta_in <= 1. and then stores the argument. -/
def set_euler_theta (td : TemporalDiscretization) (euler_theta_in : ℚ) :
    Option TemporalDiscretization :=
  if 0 ≤ euler_theta_in ∧ euler_theta_in ≤ 1 then
    some { td with euler_theta := euler_theta_in }
  else none

/-- Accessor get_n_time_steps. -/
def get_n_time_steps (td : TemporalDiscretization) : ℕ := td.n_time_steps

/-- Setter set_time_step: the source asserts k <= get_n_time_steps() and
then stores the argument. -/
def set_time_step (td : TemporalDiscretization) (k : ℕ) :
    Option TemporalDiscretization :=
  if k ≤ get_n_time_steps td then
    some { td with current_time_step := k }
  else none

/-- Accessor get_time_step. -/
def get_time_step (td : TemporalDiscretization) : ℕ := td.current_time_step

/-- Setter set_n_time_steps: the source body is a bare assignment, it
performs no assertion. -/
def set_n_time_steps (td : TemporalDiscretization) (K : ℕ) :
    TemporalDiscretization :=
  { td with n_time_steps := K }

/-- The invariant the spec states for TemporalDiscretization:
current_time_step stays at most n_time_steps and euler_theta stays
inside the unit interval. -/
def invariantTD (td : TemporalDiscretization) : Prop :=
  td.current_time_step ≤ td.n_time_steps ∧ 0 ≤ td.euler_theta ∧ td.euler_theta ≤ 1

instance (td : TemporalDiscretization) : Decidable (invariantTD td) := by
  unfold invariantTD
  infer_instance

/-!
The member functions of TransientRBEvaluation are only declared in the
header; their bodies are not part of the repository files. Following the
specification, the definitions below model them over exact rational
arithmetic. Square roots are avoided by working with the squared residual
dual norm throughout: the square root is monotone, so the equality and
nonnegativity claims are unchanged.
-/

/-- Sum of f over the index range 0, ..., n-1. -/
def sumR (n : ℕ) (f : ℕ → ℚ) : ℚ := (Finset.range n).sum f

/-- Euclidean inner product of two vectors of length dim. -/
def innerR (dim : ℕ) (u v : ℕ → ℚ) : ℚ := sumR dim (fun d => u d * v d)

/-- Entry i of a vector stored as a list, zero outside the list. -/
def vget (v : List ℚ) (i : ℕ) : ℚ := v.getD i 0

/-- The minor of a matrix: drop row 0 and column c. -/
def minorM (A : ℕ → ℕ → ℚ) (c : ℕ) : ℕ → ℕ → ℚ :=
  fun i j => A (i + 1) (if j < c then j else j + 1)

/-- Determinant of the leading n by n block, by cofactor expansion along
the first row. -/
def detM : ℕ → (ℕ → ℕ → ℚ) → ℚ
  | 0, _ => 1
  | n + 1, A => sumR (n + 1) (fun j => (-1) ^ j * A 0 j * detM n (minorM A j))

/-- Replace column c of a matrix by the vector b. -/
def replaceCol (A : ℕ → ℕ → ℚ) (b : ℕ → ℚ) (c : ℕ) : ℕ → ℕ → ℚ :=
  fun i j => if j = c then b i else A i j

/-- Modelled from the spec: the dense direct solve of the small reduced
linear system (spec 4.2 step 2), by the Cramer rule over exact rationals;
a singular system yields none, the unrecoverable numerical failure of
spec 7. -/
def solveLin (n : ℕ) (A : ℕ → ℕ → ℚ) (b : ℕ → ℚ) : Option (List ℚ) :=
  if detM n A = 0 then none
  else some ((List.range n).map (fun i => detM n (replaceCol A b i) / detM n A))

/-- Modelled from the spec: the Online data a TransientRBEvaluation holds
when rb_solve runs, including the quantities the parent class RBEvaluation
supplies (affine stiffness components RB_A_q, forcing components RB_F_q,
their representor-norm tables) whose declarations are not under src/.
Multi-dimensional tables are functions of one argument per logical index,
theta coefficients are the injected affine-expansion values for the current
parameter, and the temporal quantities delta_t, euler_theta, n_time_steps
and the stability lower bound alpha_LB are part of the solve context. -/
structure TransientRBSystem where
  Nmax : ℕ
  Qf : ℕ
  Qa : ℕ
  Qm : ℕ
  theta_f : ℕ → ℚ
  theta_a : ℕ → ℚ
  theta_m : ℕ → ℚ
  RB_A_q : ℕ → ℕ → ℕ → ℚ
  RB_M_q : ℕ → ℕ → ℕ → ℚ
  RB_F_q : ℕ → ℕ → ℚ
  RB_initial_condition_all_N : ℕ → ℕ → ℚ
  initial_L2_error_all_N : ℕ → ℚ
  Fq_representor_norms : ℕ → ℕ → ℚ
  Fq_Aq_representor_norms : ℕ → ℕ → ℕ → ℚ
  Aq_Aq_representor_norms : ℕ → ℕ → ℕ → ℕ → ℚ
  Fq_Mq_representor_norms : ℕ → ℕ → ℕ → ℚ
  Aq_Mq_representor_norms : ℕ → ℕ → ℕ → ℕ → ℚ
  Mq_Mq_representor_norms : ℕ → ℕ → ℕ → ℕ → ℚ
  delta_t : ℚ
  euler_theta : ℚ
  n_time_steps : ℕ
  alpha_LB : ℚ

/-- The cached residual terms of the header: cached_Fq_term,
cached_Fq_Aq_vector, cached_Aq_Aq_matrix, cached_Fq_Mq_vector,
cached_Aq_Mq_matrix and cached_Mq_Mq_matrix, with vectors and matrices as
index functions. -/
structure CachedResidualTerms where
  cached_Fq_term : ℚ
  cached_Fq_Aq_vector : ℕ → ℚ
  cached_Aq_Aq_matrix : ℕ → ℕ → ℚ
  cached_Fq_Mq_vector : ℕ → ℚ
  cached_Aq_Mq_matrix : ℕ → ℕ → ℚ
  cached_Mq_Mq_matrix : ℕ → ℕ → ℚ

/-- Modelled from the spec: cache_online_residual_terms contracts each
representor-norm table with the current theta coefficients once per fixed
parameter (spec 4.3, cached path), producing the time-independent cached
quantities. -/
def cache_online_residual_terms (sys : TransientRBSystem) : CachedResidualTerms :=
  { cached_Fq_term := sumR sys.Qf (fun q => sumR sys.Qf (fun q' =>
      sys.theta_f q * sys.theta_f q' * sys.Fq_representor_norms q q'))
    cached_Fq_Aq_vector := fun i => sumR sys.Qf (fun q => sumR sys.Qa (fun a =>
      sys.theta_f q * sys.theta_a a * sys.Fq_Aq_representor_norms q a i))
    cached_Aq_Aq_matrix := fun i j => sumR sys.Qa (fun a => sumR sys.Qa (fun a' =>
      sys.theta_a a * sys.theta_a a' * sys.Aq_Aq_representor_norms a a' i j))
    cached_Fq_Mq_vector := fun i => sumR sys.Qf (fun q => sumR sys.Qm (fun m =>
      sys.theta_f q * sys.theta_m m * sys.Fq_Mq_representor_norms q m i))
    cached_Aq_Mq_matrix := fun i j => sumR sys.Qa (fun a => sumR sys.Qm (fun m =>
      sys.theta_a a * sys.theta_m m * sys.Aq_Mq_representor_norms a m i j))
    cached_Mq_Mq_matrix := fun i j => sumR sys.Qm (fun m => sumR sys.Qm (fun m' =>
      sys.theta_m m * sys.theta_m m' * sys.Mq_Mq_representor_norms m m' i j)) }

/-- Modelled from the spec: compute_residual_dual_norm, cached path. The
squared dual norm of the residual at one time step is a quadratic form in
the generalized Euler state u_e and the mass coefficient vector mc against
the cached terms (order N^2 work per step). -/
def compute_residual_dual_norm_sq (sys : TransientRBSystem) (n : ℕ)
    (u_e mc : ℕ → ℚ) : ℚ :=
  (cache_online_residual_terms sys).cached_Fq_term
    + 2 * sumR n (fun i =>
        (cache_online_residual_terms sys).cached_Fq_Aq_vector i * u_e i)
    + sumR n (fun i => sumR n (fun j =>
        (cache_online_residual_terms sys).cached_Aq_Aq_matrix i j * u_e i * u_e j))
    + 2 * sumR n (fun i =>
        (cache_online_residual_terms sys).cached_Fq_Mq_vector i * mc i)
    + 2 * sumR n (fun i => sumR n (fun j =>
        (cache_online_residual_terms sys).cached_Aq_Mq_matrix i j * u_e i * mc j))
    + sumR n (fun i => sumR n (fun j =>
        (cache_online_residual_terms sys).cached_Mq_Mq_matrix i j * mc i * mc j))

/-- Modelled from the spec: uncached_compute_residual_dual_norm recomputes
the full contraction of the representor-norm tables with the current theta
coefficients on every call (spec 4.3, uncached path), again as the squared
dual norm. -/
def uncached_compute_residual_dual_norm_sq (sys : TransientRBSystem) (n : ℕ)
    (u_e mc : ℕ → ℚ) : ℚ :=
  sumR sys.Qf (fun q => sumR sys.Qf (fun q' =>
      sys.theta_f q * sys.theta_f q' * sys.Fq_representor_norms q q'))
    + 2 * sumR sys.Qf (fun q => sumR sys.Qa (fun a => sumR n (fun i =>
        sys.theta_f q * sys.theta_a a * u_e i * sys.Fq_Aq_representor_norms q a i)))
    + sumR sys.Qa (fun a => sumR sys.Qa (fun a' => sumR n (fun i => sumR n (fun j =>
        sys.theta_a a * sys.theta_a a' * u_e i * u_e j *
          sys.Aq_Aq_representor_norms a a' i j))))
    + 2 * sumR sys.Qf (fun q => sumR sys.Qm (fun m => sumR n (fun i =>
        sys.theta_f q * sys.theta_m m * mc i * sys.Fq_Mq_representor_norms q m i)))
    + 2 * sumR sys.Qa (fun a => sumR sys.Qm (fun m => sumR n (fun i => sumR n (fun j =>
        sys.theta_a a * sys.theta_m m * u_e i * mc j *
          sys.Aq_Mq_representor_norms a m i j))))
    + sumR sys.Qm (fun m => sumR sys.Qm (fun m' => sumR n (fun i => sumR n (fun j =>
        sys.theta_m m * sys.theta_m m' * mc i * mc j *
          sys.Mq_Mq_representor_norms m m' i j))))

/-- The theta-weighted reduced mass operator, the sum of the RB_M_q_vector
components (spec 4.2). -/
def reducedMass (sys : TransientRBSystem) : ℕ → ℕ → ℚ :=
  fun i j => sumR sys.Qm (fun q => sys.theta_m q * sys.RB_M_q q i j)

/-- The theta-weighted reduced stiffness operator (spec 4.2). -/
def reducedStiffness (sys : TransientRBSystem) : ℕ → ℕ → ℚ :=
  fun i j => sumR sys.Qa (fun q => sys.theta_a q * sys.RB_A_q q i j)

/-- The theta-weighted reduced forcing vector (spec 4.2). -/
def reducedForcing (sys : TransientRBSystem) : ℕ → ℚ :=
  fun i => sumR sys.Qf (fun q => sys.theta_f q * sys.RB_F_q q i)

/-- Modelled from the spec: the left-hand side operator of one generalized
Euler step, M / delta_t + euler_theta * A (spec 4.2 step 2). -/
def lhsMatrix (sys : TransientRBSystem) : ℕ → ℕ → ℚ :=
  fun i j => reducedMass sys i j / sys.delta_t
    + sys.euler_theta * reducedStiffness sys i j

/-- Modelled from the spec: the right-hand side of one generalized Euler
step, (M / delta_t - (1 - euler_theta) * A) applied to the previous state
plus the forcing (spec 4.2 step 2). -/
def rhsVector (sys : TransientRBSystem) (n : ℕ) (u_old : List ℚ) : ℕ → ℚ :=
  fun i => sumR n (fun j =>
      (reducedMass sys i j / sys.delta_t
        - (1 - sys.euler_theta) * reducedStiffness sys i j) * vget u_old j)
    + reducedForcing sys i

/-- The generalized Euler blend of the previous and the new reduced state
entering the residual. -/
def eulerStateVec (theta : ℚ) (u_old u_new : List ℚ) : ℕ → ℚ :=
  fun i => theta * vget u_new i + (1 - theta) * vget u_old i

/-- The discrete time-derivative coefficients entering the residual. -/
def massCoeffVec (dt : ℚ) (u_old u_new : List ℚ) : ℕ → ℚ :=
  fun i => -((vget u_new i - vget u_old i) / dt)

/-- Modelled from the spec: residual_scaling_numer combines the step size
with the stability lower bound alpha_LB into the factor multiplying the
squared residual dual norm in the accumulated error bound (spec 4.3). -/
def residual_scaling_numer (sys : TransientRBSystem) (alpha_LB : ℚ) : ℚ :=
  sys.delta_t / alpha_LB

/-- The per-solve transient state the march carries: the current reduced
state RB_solution, the error bound of the current time level, and the
accumulated history error_bound_all_k and RB_temporal_solution_data. -/
structure MarchState where
  RB_solution : List ℚ
  current_bound : ℚ
  error_bound_all_k : List ℚ
  RB_temporal_solution_data : List (List ℚ)
deriving DecidableEq, Repr

/-- Modelled from the spec: one generalized Euler step of rb_solve
(spec 4.2 steps 2 and 3): solve the dense system, append the new state to
the trajectory, accumulate the error bound of the new time level and append
it to error_bound_all_k. -/
def rb_solve_step (sys : TransientRBSystem) (n : ℕ) (st : MarchState) :
    Option MarchState :=
  match solveLin n (lhsMatrix sys) (rhsVector sys n st.RB_solution) with
  | none => none
  | some u_new =>
      let eps_sq := compute_residual_dual_norm_sq sys n
        (eulerStateVec sys.euler_theta st.RB_solution u_new)
        (massCoeffVec sys.delta_t st.RB_solution u_new)
      let b := st.current_bound + residual_scaling_numer sys sys.alpha_LB * eps_sq
      some { RB_solution := u_new
             current_bound := b
             error_bound_all_k := st.error_bound_all_k ++ [b]
             RB_temporal_solution_data := st.RB_temporal_solution_data ++ [u_new] }

/-- The time march: k further generalized Euler steps from a given state. -/
def rb_solve_march (sys : TransientRBSystem) (n : ℕ) :
    ℕ → MarchState → Option MarchState
  | 0, st => some st
  | k + 1, st => (rb_solve_step sys n st).bind (rb_solve_march sys n k)

/-- Modelled from the spec: the state at time level 0 (spec 4.2 step 1):
the reduced initial condition for basis size n, recorded as the first
trajectory entry, with the initial error bound from initial_L2_error_all_N
(squared, as all bounds here). -/
def initMarchState (sys : TransientRBSystem) (n : ℕ) : MarchState :=
  { RB_solution := (List.range n).map (sys.RB_initial_condition_all_N n)
    current_bound := sys.initial_L2_error_all_N n ^ 2
    error_bound_all_k := [sys.initial_L2_error_all_N n ^ 2]
    RB_temporal_solution_data := [(List.range n).map (sys.RB_initial_condition_all_N n)] }

/-- Modelled from the spec: rb_solve with basis size n. A basis size
outside 1..Nmax is a fatal precondition violation (none). Otherwise the
march runs over n_time_steps steps and the call returns the final state
together with the scalar the solve returns: the error bound computed at the
final time step. -/
def rb_solve (sys : TransientRBSystem) (n : ℕ) : Option (MarchState × ℚ) :=
  if 1 ≤ n ∧ n ≤ sys.Nmax then
    (rb_solve_march sys n sys.n_time_steps (initMarchState sys n)).map
      (fun st => (st, st.current_bound))
  else none

/-- A concrete one-dimensional system: one affine term of each kind, unit
mass matrix, zero stiffness, zero forcing, zero representor-norm tables,
unit step size, Backward Euler, one time step. -/
def tinySys : TransientRBSystem :=
  { Nmax := 1
    Qf := 1
    Qa := 1
    Qm := 1
    theta_f := fun _ => 1
    theta_a := fun _ => 1
    theta_m := fun _ => 1
    RB_A_q := fun _ _ _ => 0
    RB_M_q := fun _ _ _ => 1
    RB_F_q := fun _ _ => 0
    RB_initial_condition_all_N := fun _ _ => 0
    initial_L2_error_all_N := fun _ => 0
    Fq_representor_norms := fun _ _ => 0
    Fq_Aq_representor_norms := fun _ _ _ => 0
    Aq_Aq_representor_norms := fun _ _ _ _ => 0
    Fq_Mq_representor_norms := fun _ _ _ => 0
    Aq_Mq_representor_norms := fun _ _ _ _ => 0
    Mq_Mq_representor_norms := fun _ _ _ _ => 0
    delta_t := 1
    euler_theta := 1
    n_time_steps := 1
    alpha_LB := 1 }

/-- The reusable Offline-computed quantities the persistence layer stores,
with the nesting depth each field is declared with in the header:
RB_L2_matrix, RB_M_q_vector, RB_initial_condition_all_N,
initial_L2_error_all_N, Fq_Mq_representor_norms (three levels),
Mq_Mq_representor_norms (three levels, first level a flattened symmetric
pair of mass-term indices) and Aq_Mq_representor_norms (four levels). -/
structure TransientOfflineData where
  RB_L2_matrix : List (List ℚ)
  RB_M_q_vector : List (List (List ℚ))
  RB_initial_condition_all_N : List (List ℚ)
  initial_L2_error_all_N : List ℚ
  Fq_Mq_representor_norms : List (List (List ℚ))
  Mq_Mq_representor_norms : List (List (List ℚ))
  Aq_Mq_representor_norms : List (List (List (List ℚ)))
deriving DecidableEq, Repr

/-- Modelled from the spec: one serialized artifact is a length-prefixed
flat stream of numbers; a vector is written as its length followed by its
entries. -/
def encodeVec (v : List ℚ) : List ℚ := (v.length : ℚ) :: v

/-- Read back one length-prefixed vector; fails on a missing or malformed
length tag or a stream shorter than that tag announces. -/
def decodeVec (s : List ℚ) : Option (List ℚ × List ℚ) :=
  match s with
  | [] => none
  | x :: rest =>
      if x = (x.num.toNat : ℚ) ∧ x.num.toNat ≤ rest.length then
        some (rest.take x.num.toNat, rest.drop x.num.toNat)
      else none

/-- Read back a fixed number of artifacts in sequence with a given
single-artifact reader. -/
def decodeSeq {α : Type} (dec : List ℚ → Option (α × List ℚ)) :
    ℕ → List ℚ → Option (List α × List ℚ)
  | 0, s => some ([], s)
  | k + 1, s =>
      match dec s with
      | none => none
      | some (x, s') =>
          match decodeSeq dec k s' with
          | none => none
          | some (xs, s'') => some (x :: xs, s'')

/-- A two-level table: its length followed by each row as an artifact. -/
def encodeVec2 (m : List (List ℚ)) : List ℚ :=
  (m.length : ℚ) :: (m.map encodeVec).flatten

/-- Read back a two-level table. -/
def decodeVec2 (s : List ℚ) : Option (List (List ℚ) × List ℚ) :=
  match s with
  | [] => none
  | x :: rest =>
      if x = (x.num.toNat : ℚ) then decodeSeq decodeVec x.num.toNat rest
      else none

/-- A three-level table: its length followed by each slab as an artifact. -/
def encodeVec3 (m : List (List (List ℚ))) : List ℚ :=
  (m.length : ℚ) :: (m.map encodeVec2).flatten

/-- Read back a three-level table. -/
def decodeVec3 (s : List ℚ) : Option (List (List (List ℚ)) × List ℚ) :=
  match s with
  | [] => none
  | x :: rest =>
      if x = (x.num.toNat : ℚ) then decodeSeq decodeVec2 x.num.toNat rest
      else none

/-- A four-level table: its length followed by each block as an artifact. -/
def encodeVec4 (m : List (List (List (List ℚ)))) : List ℚ :=
  (m.length : ℚ) :: (m.map encodeVec3).flatten

/-- Read back a four-level table. -/
def decodeVec4 (s : List ℚ) : Option (List (List (List (List ℚ))) × List ℚ) :=
  match s with
  | [] => none
  | x :: rest =>
      if x = (x.num.toNat : ℚ) then decodeSeq decodeVec3 x.num.toNat rest
      else none

/-- Modelled from the spec: write_offline_data_to_files serializes every
reusable Offline-computed quantity, one dimension-tagged artifact per
quantity, into one flat stream standing for the directory of files. -/
def write_offline_data_to_files (d : TransientOfflineData) : List ℚ :=
  encodeVec2 d.RB_L2_matrix
    ++ encodeVec3 d.RB_M_q_vector
    ++ encodeVec2 d.RB_initial_condition_all_N
    ++ encodeVec d.initial_L2_error_all_N
    ++ encodeVec3 d.Fq_Mq_representor_norms
    ++ encodeVec3 d.Mq_Mq_representor_norms
    ++ encodeVec4 d.Aq_Mq_representor_norms

/-- Modelled from the spec: read_offline_data_from_files reads the
artifacts back in order and fails, leaving no partial object, when an
artifact is missing or malformed or the stream holds trailing data. -/
def read_offline_data_from_files (s : List ℚ) : Option TransientOfflineData :=
  match decodeVec2 s with
  | none => none
  | some (l2, s1) =>
      match decodeVec3 s1 with
      | none => none
      | some (mq, s2) =>
          match decodeVec2 s2 with
          | none => none
          | some (ic, s3) =>
              match decodeVec s3 with
              | none => none
              | some (ie, s4) =>
                  match decodeVec3 s4 with
                  | none => none
                  | some (fm, s5) =>
                      match decodeVec3 s5 with
                      | none => none
                      | some (mm, s6) =>
                          match decodeVec4 s6 with
                          | none => none
                          | some (am, s7) =>
                              match s7 with
                              | [] => some
                                  { RB_L2_matrix := l2
                                    RB_M_q_vector := mq
                                    RB_initial_condition_all_N := ic
                                    initial_L2_error_all_N := ie
                                    Fq_Mq_representor_norms := fm
                                    Mq_Mq_representor_norms := mm
                                    Aq_Mq_representor_norms := am }
                              | _ => none

/-- The parameter-dependent and parent-class context an Online run supplies
next to the persisted offline data when it builds a solve-ready system. -/
structure OnlineParameters where
  Nmax : ℕ
  Qf : ℕ
  Qa : ℕ
  Qm : ℕ
  theta_f : ℕ → ℚ
  theta_a : ℕ → ℚ
  theta_m : ℕ → ℚ
  RB_A_q : ℕ → ℕ → ℕ → ℚ
  RB_F_q : ℕ → ℕ → ℚ
  Fq_representor_norms : ℕ → ℕ → ℚ
  Fq_Aq_representor_norms : ℕ → ℕ → ℕ → ℚ
  Aq_Aq_representor_norms : ℕ → ℕ → ℕ → ℕ → ℚ
  delta_t : ℚ
  euler_theta : ℚ
  n_time_steps : ℕ
  alpha_LB : ℚ

/-- Index of the unordered pair of mass-term indices in the flattened
first level of Mq_Mq_representor_norms: pairs (m, mp) with m <= mp are
enumerated row by row. -/
def symPairIndex (Q m mp : ℕ) : ℕ :=
  if m ≤ mp then m * Q - m * (m - 1) / 2 + (mp - m)
  else mp * Q - mp * (mp - 1) / 2 + (m - mp)

/-- Build the solve-ready system from persisted offline data and the
Online context; list-stored tables are read through total accessors that
return zero outside their bounds, and the flattened symmetric Mq_Mq table
is read through symPairIndex with the basis indices swapped on the
transposed pair. -/
def toSystem (p : OnlineParameters) (d : TransientOfflineData) :
    TransientRBSystem :=
  { Nmax := p.Nmax
    Qf := p.Qf
    Qa := p.Qa
    Qm := p.Qm
    theta_f := p.theta_f
    theta_a := p.theta_a
    theta_m := p.theta_m
    RB_A_q := p.RB_A_q
    RB_M_q := fun q i j => ((d.RB_M_q_vector.getD q []).getD i []).getD j 0
    RB_F_q := p.RB_F_q
    RB_initial_condition_all_N := fun n i =>
      (d.RB_initial_condition_all_N.getD n []).getD i 0
    initial_L2_error_all_N := fun n => d.initial_L2_error_all_N.getD n 0
    Fq_representor_norms := p.Fq_representor_norms
    Fq_Aq_representor_norms := p.Fq_Aq_representor_norms
    Aq_Aq_representor_norms := p.Aq_Aq_representor_norms
    Fq_Mq_representor_norms := fun q m i =>
      ((d.Fq_Mq_representor_norms.getD q []).getD m []).getD i 0
    Aq_Mq_representor_norms := fun a m i j =>
      (((d.Aq_Mq_representor_norms.getD a []).getD m []).getD i []).getD j 0
    Mq_Mq_representor_norms := fun m mp i j =>
      if m ≤ mp then
        ((d.Mq_Mq_representor_norms.getD (symPairIndex p.Qm m mp) []).getD i []).getD j 0
      else
        ((d.Mq_Mq_representor_norms.getD (symPairIndex p.Qm m mp) []).getD j []).getD i 0
    delta_t := p.delta_t
    euler_theta := p.euler_theta
    n_time_steps := p.n_time_steps
    alpha_LB := p.alpha_LB }

/-- C1: set_euler_theta succeeds and stores its argument exactly when the
argument lies in the unit interval, set_time_step succeeds and stores its
argument exactly when it is at most n_time_steps, and the concrete calls
with -0.1 and 1.1 both fail the precondition. -/
theorem setter_precondition_spec :
    (∀ (td : TemporalDiscretization) (t : ℚ),
      (∃ td', set_euler_theta td t = some td' ∧ td'.euler_theta = t) ↔
        (0 ≤ t ∧ t ≤ 1)) ∧
    (∀ (td : TemporalDiscretization) (k : ℕ),
      (∃ td', set_time_step td k = some td' ∧ td'.current_time_step = k) ↔
        k ≤ td.n_time_steps) ∧
    (∀ td : TemporalDiscretization,
      set_euler_theta td (-(1/10)) = none ∧ set_euler_theta td (11/10) = none) := by
  refine ⟨fun td t => ?_, fun td k => ?_, fun td => ?_⟩
  · unfold set_euler_theta
    by_cases h : 0 ≤ t ∧ t ≤ 1
    · simp [h]
    · simp [h]
  · unfold set_time_step get_n_time_steps
    by_cases h : k ≤ td.n_time_steps
    · simp [h]
    · simp [h]
  · constructor
    · unfold set_euler_theta
      norm_num
    · unfold set_euler_theta
      norm_num

/-- C2 counterexample: a state satisfying the invariant on which
set_n_time_steps returns without any assertion yet breaks the invariant
(it lowers n_time_steps below current_time_step). -/
theorem set_n_time_steps_invariant_cex :
    invariantTD { delta_t := 0, euler_theta := 0, current_time_step := 1, n_time_steps := 1 } ∧
    ¬ invariantTD (set_n_time_steps
      { delta_t := 0, euler_theta := 0, current_time_step := 1, n_time_steps := 1 } 0) := by
  decide

/-- C2 amended: the invariant holds after construction and is preserved by
set_delta_t, by every accepted set_euler_theta and set_time_step call, and
by set_n_time_steps exactly when the new step count is at least the current
time step (set_n_time_steps performs no assertion and may break the
invariant otherwise). -/
theorem invariant_preservation_amended :
    invariantTD defaultTemporalDiscretization ∧
    (∀ (td : TemporalDiscretization) (d : ℚ),
      invariantTD td → invariantTD (set_delta_t td d)) ∧
    (∀ (td td' : TemporalDiscretization) (t : ℚ),
      invariantTD td → set_euler_theta td t = some td' → invariantTD td') ∧
    (∀ (td td' : TemporalDiscretization) (k : ℕ),
      invariantTD td → set_time_step td k = some td' → invariantTD td') ∧
    (∀ (td : TemporalDiscretization) (K : ℕ), invariantTD td →
      (invariantTD (set_n_time_steps td K) ↔ td.current_time_step ≤ K)) := by
  refine ⟨by decide, ?_, ?_, ?_, ?_⟩
  · intro td d h
    exact h
  · intro td td' t h hset
    unfold set_euler_theta at hset
    by_cases hc : 0 ≤ t ∧ t ≤ 1
    · simp [hc] at hset
      subst hset
      exact ⟨h.1, hc.1, hc.2⟩
    · simp [hc] at hset
  · intro td td' k h hset
    unfold set_time_step get_n_time_steps at hset
    by_cases hc : k ≤ td.n_time_steps
    · simp [hc] at hset
      subst hset
      exact ⟨hc, h.2.1, h.2.2⟩
    · simp [hc] at hset
  · intro td K h
    unfold invariantTD set_n_time_steps
    constructor
    · intro h'
      exact h'.1
    · intro hK
      exact ⟨hK, h.2.1, h.2.2⟩

/-- C3 counterexample: set_delta_t accepts a negative argument without any
precondition failure and stores it, so the stored delta_t is not positive. -/
theorem set_delta_t_no_precondition_cex :
    (set_delta_t
      { delta_t := 1, euler_theta := 0, current_time_step := 0, n_time_steps := 0 }
      (-1)).delta_t = -1 ∧
    ¬ (0 < (set_delta_t
      { delta_t := 1, euler_theta := 0, current_time_step := 0, n_time_steps := 0 }
      (-1)).delta_t) := by
  decide

/-- C3 amended: set_delta_t performs no precondition check at all; every
call is accepted and stores exactly its argument, positive or not. -/
theorem set_delta_t_stores_unconditionally :
    ∀ (td : TemporalDiscretization) (d : ℚ),
      set_delta_t td d = { td with delta_t := d } :=
  fun _ _ => rfl

/-- C4: each setter of TemporalDiscretization writes only its own field,
leaving the other three fields unchanged on every accepted call. -/
theorem setter_frame_conditions :
    (∀ (td : TemporalDiscretization) (d : ℚ),
      (set_delta_t td d).euler_theta = td.euler_theta ∧
      (set_delta_t td d).current_time_step = td.current_time_step ∧
      (set_delta_t td d).n_time_steps = td.n_time_steps) ∧
    (∀ (td td' : TemporalDiscretization) (t : ℚ), set_euler_theta td t = some td' →
      td'.delta_t = td.delta_t ∧
      td'.current_time_step = td.current_time_step ∧
      td'.n_time_steps = td.n_time_steps) ∧
    (∀ (td td' : TemporalDiscretization) (k : ℕ), set_time_step td k = some td' →
      td'.delta_t = td.delta_t ∧
      td'.euler_theta = td.euler_theta ∧
      td'.n_time_steps = td.n_time_steps) ∧
    (∀ (td : TemporalDiscretization) (K : ℕ),
      (set_n_time_steps td K).delta_t = td.delta_t ∧
      (set_n_time_steps td K).euler_theta = td.euler_theta ∧
      (set_n_time_steps td K).current_time_step = td.current_time_step) := by
  refine ⟨fun td d => ⟨rfl, rfl, rfl⟩, ?_, ?_, fun td K => ⟨rfl, rfl, rfl⟩⟩
  · intro td td' t hset
    unfold set_euler_theta at hset
    by_cases hc : 0 ≤ t ∧ t ≤ 1
    · simp [hc] at hset
      subst hset
      exact ⟨rfl, rfl, rfl⟩
    · simp [hc] at hset
  · intro td td' k hset
    unfold set_time_step get_n_time_steps at hset
    by_cases hc : k ≤ td.n_time_steps
    · simp [hc] at hset
      subst hset
      exact ⟨rfl, rfl, rfl⟩
    · simp [hc] at hset

/-- C10: the default constructor zero-initialises every member, so delta_t
starts at zero (not a positive value) and the default scheme is Forward
Euler, i.e. euler_theta is zero. -/
theorem default_construction_values :
    defaultTemporalDiscretization.delta_t = 0 ∧
    defaultTemporalDiscretization.euler_theta = 0 ∧
    defaultTemporalDiscretization.current_time_step = 0 ∧
    defaultTemporalDiscretization.n_time_steps = 0 :=
  ⟨rfl, rfl, rfl, rfl⟩

/-- Helper: one march step appends exactly the bound it computes, so after
the step the last recorded bound is the carried current bound, and the
bound history grows by one entry. -/
theorem rb_solve_step_invariant (sys : TransientRBSystem) (n : ℕ)
    (st st' : MarchState) (h : rb_solve_step sys n st = some st') :
    st'.error_bound_all_k.getLast? = some st'.current_bound ∧
    st'.error_bound_all_k.length = st.error_bound_all_k.length + 1 := by
  unfold rb_solve_step at h
  cases hsol : solveLin n (lhsMatrix sys) (rhsVector sys n st.RB_solution) with
  | none => rw [hsol] at h; cases h
  | some u =>
      rw [hsol] at h
      simp only [Option.some.injEq] at h
      subst h
      constructor
      · simp
      · simp

/-- Helper: the march preserves the last-recorded-bound invariant and adds
one bound entry per time step. -/
theorem rb_solve_march_invariant (sys : TransientRBSystem) (n : ℕ) (k : ℕ) :
    ∀ (st st' : MarchState),
      rb_solve_march sys n k st = some st' →
      st.error_bound_all_k.getLast? = some st.current_bound →
      (st'.error_bound_all_k.getLast? = some st'.current_bound ∧
       st'.error_bound_all_k.length = st.error_bound_all_k.length + k) := by
  induction k with
  | zero =>
      intro st st' h hlast
      unfold rb_solve_march at h
      simp only [Option.some.injEq] at h
      subst h
      exact ⟨hlast, rfl⟩
  | succ k ih =>
      intro st st' h hlast
      unfold rb_solve_march at h
      cases hstep : rb_solve_step sys n st with
      | none => rw [hstep] at h; cases h
      | some st1 =>
          rw [hstep] at h
          have hmarch : rb_solve_march sys n k st1 = some st' := h
          have h1 := rb_solve_step_invariant sys n st st1 hstep
          have h2 := ih st1 st' hmarch h1.1
          refine ⟨h2.1, ?_⟩
          rw [h2.2, h1.2]
          omega

/-- C5: an accepted rb_solve call returns exactly the last entry of the
error_bound_all_k history computed during that solve, and the history has
one entry per time level, n_time_steps + 1 in all. -/
theorem rb_solve_returns_last_error_bound (sys : TransientRBSystem) (n : ℕ)
    (st : MarchState) (r : ℚ) (h : rb_solve sys n = some (st, r)) :
    st.error_bound_all_k.getLast? = some r ∧
    st.error_bound_all_k.length = sys.n_time_steps + 1 := by
  unfold rb_solve at h
  by_cases hn : 1 ≤ n ∧ n ≤ sys.Nmax
  · rw [if_pos hn] at h
    cases hm : rb_solve_march sys n sys.n_time_steps (initMarchState sys n) with
    | none => rw [hm] at h; cases h
    | some st0 =>
        rw [hm] at h
        simp only [Option.map_some', Option.some.injEq, Prod.mk.injEq] at h
        obtain ⟨hst, hr⟩ := h
        subst hst
        have hinit : (initMarchState sys n).error_bound_all_k.getLast? =
            some (initMarchState sys n).current_bound := by
          simp [initMarchState]
        have h2 := rb_solve_march_invariant sys n sys.n_time_steps
          (initMarchState sys n) st0 hm hinit
        refine ⟨by rw [← hr]; exact h2.1, ?_⟩
        have h3 : (initMarchState sys n).error_bound_all_k.length = 1 := by
          simp [initMarchState]
        rw [h2.2, h3]
        omega
  · rw [if_neg hn] at h; cases h

/-- Witness for C5: the one-dimensional one-step system solves to the
concrete final state with bound history of length two whose last entry is
the returned bound. -/
theorem rb_solve_returns_last_error_bound_witness :
    (MarchState.mk [0] 0 [0, 0] [[0], [0]]).error_bound_all_k.getLast? = some 0 ∧
    (MarchState.mk [0] 0 [0, 0] [[0], [0]]).error_bound_all_k.length =
      tinySys.n_time_steps + 1 :=
  rb_solve_returns_last_error_bound tinySys 1
    (MarchState.mk [0] 0 [0, 0] [[0], [0]]) 0 (by
      norm_num [rb_solve, rb_solve_march, rb_solve_step, solveLin, detM, minorM,
        replaceCol, lhsMatrix, rhsVector, reducedMass, reducedStiffness,
        reducedForcing, compute_residual_dual_norm_sq, cache_online_residual_terms,
        eulerStateVec, massCoeffVec, residual_scaling_numer, initMarchState,
        sumR, vget, tinySys, Finset.sum_range_succ, List.range_succ,
        List.range_zero])

/-- Pointwise equal summands give equal range sums. -/
theorem sumR_congr (n : ℕ) (f g : ℕ → ℚ) (h : ∀ i, f i = g i) :
    sumR n f = sumR n g :=
  Finset.sum_congr rfl (fun i _ => h i)

/-- Helper: pull a contraction of a doubly indexed coefficient table out of
a weighted vector sum. -/
theorem contract_swap3 (A B n : ℕ) (c : ℕ → ℕ → ℕ → ℚ) (u : ℕ → ℚ) :
    sumR n (fun i => sumR A (fun q => sumR B (fun a => c q a i)) * u i) =
    sumR A (fun q => sumR B (fun a => sumR n (fun i => c q a i * u i))) := by
  unfold sumR
  simp only [Finset.sum_mul]
  rw [Finset.sum_comm]
  exact Finset.sum_congr rfl fun q _ => Finset.sum_comm

/-- Helper: pull a contraction of a doubly indexed coefficient table out of
a weighted double sum. -/
theorem contract_swap4 (A B n m : ℕ) (c : ℕ → ℕ → ℕ → ℕ → ℚ) (u v : ℕ → ℚ) :
    sumR n (fun i => sumR m (fun j =>
      sumR A (fun a => sumR B (fun b => c a b i j)) * u i * v j)) =
    sumR A (fun a => sumR B (fun b =>
      sumR n (fun i => sumR m (fun j => c a b i j * u i * v j)))) := by
  unfold sumR
  simp only [Finset.sum_mul]
  calc (∑ i ∈ Finset.range n, ∑ j ∈ Finset.range m, ∑ a ∈ Finset.range A,
          ∑ b ∈ Finset.range B, c a b i j * u i * v j)
      = ∑ i ∈ Finset.range n, ∑ a ∈ Finset.range A, ∑ j ∈ Finset.range m,
          ∑ b ∈ Finset.range B, c a b i j * u i * v j :=
        Finset.sum_congr rfl fun i _ => Finset.sum_comm
    _ = ∑ a ∈ Finset.range A, ∑ i ∈ Finset.range n, ∑ j ∈ Finset.range m,
          ∑ b ∈ Finset.range B, c a b i j * u i * v j :=
        Finset.sum_comm
    _ = ∑ a ∈ Finset.range A, ∑ i ∈ Finset.range n, ∑ b ∈ Finset.range B,
          ∑ j ∈ Finset.range m, c a b i j * u i * v j :=
        Finset.sum_congr rfl fun a _ =>
          Finset.sum_congr rfl fun i _ => Finset.sum_comm
    _ = ∑ a ∈ Finset.range A, ∑ b ∈ Finset.range B, ∑ i ∈ Finset.range n,
          ∑ j ∈ Finset.range m, c a b i j * u i * v j :=
        Finset.sum_congr rfl fun a _ => Finset.sum_comm

/-- Helper: the cached and the uncached squared residual dual norm are the
same contraction evaluated in two orders, so they agree exactly for every
state, every basis size and every fixed parameter. -/
theorem cached_eq_uncached_dual_norm_sq (sys : TransientRBSystem) (n : ℕ)
    (u_e mc : ℕ → ℚ) :
    compute_residual_dual_norm_sq sys n u_e mc =
    uncached_compute_residual_dual_norm_sq sys n u_e mc := by
  unfold compute_residual_dual_norm_sq uncached_compute_residual_dual_norm_sq
  simp only [cache_online_residual_terms]
  simp only [contract_swap3, contract_swap4]
  simp only [mul_comm, mul_left_comm, mul_assoc]

/-- C6: with the parameter held fixed across the march, the cached residual
evaluation (compute_residual_dual_norm after cache_online_residual_terms)
and the uncached one compute exactly the same quantity at every time step,
for every basis size and every pair of state vectors. -/
theorem cached_uncached_residual_dual_norms_agree :
    ∀ (sys : TransientRBSystem) (n : ℕ) (u_e mc : ℕ → ℚ),
      compute_residual_dual_norm_sq sys n u_e mc =
      uncached_compute_residual_dual_norm_sq sys n u_e mc :=
  fun sys n u_e mc => cached_eq_uncached_dual_norm_sq sys n u_e mc

/-- Splitting a range sum of pointwise sums. -/
theorem sumR_add (n : ℕ) (f g : ℕ → ℚ) :
    sumR n (fun i => f i + g i) = sumR n f + sumR n g :=
  Finset.sum_add_distrib

/-- A range sum of nonnegative summands is nonnegative. -/
theorem sumR_nonneg (n : ℕ) (f : ℕ → ℚ) (h : ∀ i, 0 ≤ f i) :
    0 ≤ sumR n f :=
  Finset.sum_nonneg fun i _ => h i

/-- Expansion of a squared three-term sum, grouped for distributing sums. -/
theorem sq_expand (p q r : ℚ) :
    (p + q + r) ^ 2 =
    p * p + q * q + r * r + (2 * (p * q) + (2 * (p * r) + 2 * (q * r))) := by
  ring

/-- Helper: a sum over coordinates of a product of two weighted vector
combinations is the double contraction of the weights against the table of
coordinate products. -/
theorem sum_mul_of_sums {α β : Type} (dim : ℕ) (s : Finset α) (t : Finset β)
    (f : α → ℚ) (g : β → ℚ) (V : α → ℕ → ℚ) (W : β → ℕ → ℚ) :
    (∑ d ∈ Finset.range dim, (∑ a ∈ s, f a * V a d) * (∑ b ∈ t, g b * W b d)) =
    ∑ a ∈ s, ∑ b ∈ t, f a * g b * ∑ d ∈ Finset.range dim, V a d * W b d := by
  simp only [Finset.sum_mul_sum]
  rw [Finset.sum_comm]
  refine Finset.sum_congr rfl fun a _ => ?_
  rw [Finset.sum_comm]
  refine Finset.sum_congr rfl fun b _ => ?_
  rw [Finset.mul_sum]
  refine Finset.sum_congr rfl fun d _ => ?_
  ring

/-- Helper: a nested double sum over two ranges as one sum over the product
of the ranges. -/
theorem nested_as_product (A n : ℕ) (g : ℕ → ℕ → ℚ) :
    (∑ a ∈ Finset.range A, ∑ i ∈ Finset.range n, g a i) =
    ∑ p ∈ Finset.range A ×ˢ Finset.range n, g p.1 p.2 :=
  (Finset.sum_product (Finset.range A) (Finset.range n) (fun p => g p.1 p.2)).symm

/-- Helper: coordinate-sum contraction, one flat and one doubly weighted
factor. -/
theorem cross_flat_nested (Qc A n dim : ℕ) (c : ℕ → ℚ) (V : ℕ → ℕ → ℚ)
    (ca : ℕ → ℚ) (u : ℕ → ℚ) (W : ℕ → ℕ → ℕ → ℚ) :
    (∑ d ∈ Finset.range dim, (∑ q ∈ Finset.range Qc, c q * V q d) *
      ∑ a ∈ Finset.range A, ∑ i ∈ Finset.range n, ca a * u i * W a i d) =
    ∑ q ∈ Finset.range Qc, ∑ a ∈ Finset.range A, ∑ i ∈ Finset.range n,
      c q * (ca a * u i) * ∑ d ∈ Finset.range dim, V q d * W a i d := by
  have h1 : ∀ d : ℕ,
      (∑ a ∈ Finset.range A, ∑ i ∈ Finset.range n, ca a * u i * W a i d) =
      ∑ p ∈ Finset.range A ×ˢ Finset.range n, (ca p.1 * u p.2) * W p.1 p.2 d :=
    fun d => nested_as_product A n (fun a i => ca a * u i * W a i d)
  simp only [h1]
  rw [sum_mul_of_sums dim (Finset.range Qc) (Finset.range A ×ˢ Finset.range n)
    c (fun p => ca p.1 * u p.2) V (fun p => W p.1 p.2)]
  refine Finset.sum_congr rfl fun q _ => ?_
  exact (nested_as_product A n
    (fun a i => c q * (ca a * u i) * ∑ d ∈ Finset.range dim, V q d * W a i d)).symm

/-- Helper: coordinate-sum contraction of two doubly weighted factors. -/
theorem cross_nested_nested (A n B m dim : ℕ) (ca : ℕ → ℚ) (u : ℕ → ℚ)
    (cb : ℕ → ℚ) (w : ℕ → ℚ) (V W : ℕ → ℕ → ℕ → ℚ) :
    (∑ d ∈ Finset.range dim,
      (∑ a ∈ Finset.range A, ∑ i ∈ Finset.range n, ca a * u i * V a i d) *
      ∑ b ∈ Finset.range B, ∑ j ∈ Finset.range m, cb b * w j * W b j d) =
    ∑ a ∈ Finset.range A, ∑ b ∈ Finset.range B, ∑ i ∈ Finset.range n,
      ∑ j ∈ Finset.range m,
      (ca a * u i) * (cb b * w j) * ∑ d ∈ Finset.range dim, V a i d * W b j d := by
  have h1 : ∀ d : ℕ,
      (∑ a ∈ Finset.range A, ∑ i ∈ Finset.range n, ca a * u i * V a i d) =
      ∑ p ∈ Finset.range A ×ˢ Finset.range n, (ca p.1 * u p.2) * V p.1 p.2 d :=
    fun d => nested_as_product A n (fun a i => ca a * u i * V a i d)
  have h2 : ∀ d : ℕ,
      (∑ b ∈ Finset.range B, ∑ j ∈ Finset.range m, cb b * w j * W b j d) =
      ∑ p ∈ Finset.range B ×ˢ Finset.range m, (cb p.1 * w p.2) * W p.1 p.2 d :=
    fun d => nested_as_product B m (fun b j => cb b * w j * W b j d)
  simp only [h1, h2]
  rw [sum_mul_of_sums dim (Finset.range A ×ˢ Finset.range n)
    (Finset.range B ×ˢ Finset.range m)
    (fun p => ca p.1 * u p.2) (fun p => cb p.1 * w p.2)
    (fun p => V p.1 p.2) (fun p => W p.1 p.2)]
  have h3 : ∀ p : ℕ × ℕ,
      (∑ q ∈ Finset.range B ×ˢ Finset.range m,
        (ca p.1 * u p.2) * (cb q.1 * w q.2) *
          ∑ d ∈ Finset.range dim, V p.1 p.2 d * W q.1 q.2 d) =
      ∑ b ∈ Finset.range B, ∑ j ∈ Finset.range m,
        (ca p.1 * u p.2) * (cb b * w j) *
          ∑ d ∈ Finset.range dim, V p.1 p.2 d * W b j d :=
    fun p => (nested_as_product B m
      (fun b j => (ca p.1 * u p.2) * (cb b * w j) *
        ∑ d ∈ Finset.range dim, V p.1 p.2 d * W b j d)).symm
  simp only [h3]
  rw [← nested_as_product A n
    (fun a i => ∑ b ∈ Finset.range B, ∑ j ∈ Finset.range m,
      (ca a * u i) * (cb b * w j) * ∑ d ∈ Finset.range dim, V a i d * W b j d)]
  exact Finset.sum_congr rfl fun a _ => Finset.sum_comm

/-- Helper: when every representor-norm table is the table of inner
products of actual representor vectors, the uncached squared residual dual
norm is a coordinatewise sum of squares of the combined residual
representor. -/
theorem uncached_dual_norm_sq_as_sum_of_squares (sys : TransientRBSystem)
    (n dim : ℕ) (u_e mc : ℕ → ℚ) (Fr : ℕ → ℕ → ℚ) (Ar Mr : ℕ → ℕ → ℕ → ℚ)
    (hF : ∀ q q', sys.Fq_representor_norms q q' = innerR dim (Fr q) (Fr q'))
    (hFA : ∀ q a i, sys.Fq_Aq_representor_norms q a i = innerR dim (Fr q) (Ar a i))
    (hAA : ∀ a a' i j, sys.Aq_Aq_representor_norms a a' i j = innerR dim (Ar a i) (Ar a' j))
    (hFM : ∀ q m i, sys.Fq_Mq_representor_norms q m i = innerR dim (Fr q) (Mr m i))
    (hAM : ∀ a m i j, sys.Aq_Mq_representor_norms a m i j = innerR dim (Ar a i) (Mr m j))
    (hMM : ∀ m m' i j, sys.Mq_Mq_representor_norms m m' i j = innerR dim (Mr m i) (Mr m' j)) :
    uncached_compute_residual_dual_norm_sq sys n u_e mc =
    sumR dim (fun d =>
      (sumR sys.Qf (fun q => sys.theta_f q * Fr q d)
        + sumR sys.Qa (fun a => sumR n (fun i => sys.theta_a a * u_e i * Ar a i d))
        + sumR sys.Qm (fun m => sumR n (fun i => sys.theta_m m * mc i * Mr m i d))) ^ 2) := by
  unfold uncached_compute_residual_dual_norm_sq
  simp only [innerR, sumR] at hF hFA hAA hFM hAM hMM ⊢
  simp only [hF, hFA, hAA, hFM, hAM, hMM]
  simp only [sq_expand]
  simp only [Finset.sum_add_distrib]
  simp only [← Finset.mul_sum]
  rw [sum_mul_of_sums dim (Finset.range sys.Qf) (Finset.range sys.Qf)
    sys.theta_f sys.theta_f Fr Fr]
  rw [cross_flat_nested sys.Qf sys.Qa n dim sys.theta_f Fr sys.theta_a u_e Ar]
  rw [cross_flat_nested sys.Qf sys.Qm n dim sys.theta_f Fr sys.theta_m mc Mr]
  rw [cross_nested_nested sys.Qa n sys.Qa n dim sys.theta_a u_e sys.theta_a u_e Ar Ar]
  rw [cross_nested_nested sys.Qa n sys.Qm n dim sys.theta_a u_e sys.theta_m mc Ar Mr]
  rw [cross_nested_nested sys.Qm n sys.Qm n dim sys.theta_m mc sys.theta_m mc Mr Mr]
  have e2 : (∑ q ∈ Finset.range sys.Qf, ∑ a ∈ Finset.range sys.Qa,
        ∑ i ∈ Finset.range n, sys.theta_f q * (sys.theta_a a * u_e i) *
          ∑ d ∈ Finset.range dim, Fr q d * Ar a i d) =
      ∑ q ∈ Finset.range sys.Qf, ∑ a ∈ Finset.range sys.Qa,
        ∑ i ∈ Finset.range n, sys.theta_f q * sys.theta_a a * u_e i *
          ∑ d ∈ Finset.range dim, Fr q d * Ar a i d :=
    Finset.sum_congr rfl fun q _ => Finset.sum_congr rfl fun a _ =>
      Finset.sum_congr rfl fun i _ => by ring
  have e4 : (∑ q ∈ Finset.range sys.Qf, ∑ m ∈ Finset.range sys.Qm,
        ∑ i ∈ Finset.range n, sys.theta_f q * (sys.theta_m m * mc i) *
          ∑ d ∈ Finset.range dim, Fr q d * Mr m i d) =
      ∑ q ∈ Finset.range sys.Qf, ∑ m ∈ Finset.range sys.Qm,
        ∑ i ∈ Finset.range n, sys.theta_f q * sys.theta_m m * mc i *
          ∑ d ∈ Finset.range dim, Fr q d * Mr m i d :=
    Finset.sum_congr rfl fun q _ => Finset.sum_congr rfl fun m _ =>
      Finset.sum_congr rfl fun i _ => by ring
  have e3 : (∑ a ∈ Finset.range sys.Qa, ∑ b ∈ Finset.range sys.Qa,
        ∑ i ∈ Finset.range n, ∑ j ∈ Finset.range n,
        (sys.theta_a a * u_e i) * (sys.theta_a b * u_e j) *
          ∑ d ∈ Finset.range dim, Ar a i d * Ar b j d) =
      ∑ a ∈ Finset.range sys.Qa, ∑ b ∈ Finset.range sys.Qa,
        ∑ i ∈ Finset.range n, ∑ j ∈ Finset.range n,
        sys.theta_a a * sys.theta_a b * u_e i * u_e j *
          ∑ d ∈ Finset.range dim, Ar a i d * Ar b j d :=
    Finset.sum_congr rfl fun a _ => Finset.sum_congr rfl fun b _ =>
      Finset.sum_congr rfl fun i _ => Finset.sum_congr rfl fun j _ => by ring
  have e5 : (∑ a ∈ Finset.range sys.Qa, ∑ b ∈ Finset.range sys.Qm,
        ∑ i ∈ Finset.range n, ∑ j ∈ Finset.range n,
        (sys.theta_a a * u_e i) * (sys.theta_m b * mc j) *
          ∑ d ∈ Finset.range dim, Ar a i d * Mr b j d) =
      ∑ a ∈ Finset.range sys.Qa, ∑ b ∈ Finset.range sys.Qm,
        ∑ i ∈ Finset.range n, ∑ j ∈ Finset.range n,
        sys.theta_a a * sys.theta_m b * u_e i * mc j *
          ∑ d ∈ Finset.range dim, Ar a i d * Mr b j d :=
    Finset.sum_congr rfl fun a _ => Finset.sum_congr rfl fun b _ =>
      Finset.sum_congr rfl fun i _ => Finset.sum_congr rfl fun j _ => by ring
  have e6 : (∑ a ∈ Finset.range sys.Qm, ∑ b ∈ Finset.range sys.Qm,
        ∑ i ∈ Finset.range n, ∑ j ∈ Finset.range n,
        (sys.theta_m a * mc i) * (sys.theta_m b * mc j) *
          ∑ d ∈ Finset.range dim, Mr a i d * Mr b j d) =
      ∑ a ∈ Finset.range sys.Qm, ∑ b ∈ Finset.range sys.Qm,
        ∑ i ∈ Finset.range n, ∑ j ∈ Finset.range n,
        sys.theta_m a * sys.theta_m b * mc i * mc j *
          ∑ d ∈ Finset.range dim, Mr a i d * Mr b j d :=
    Finset.sum_congr rfl fun a _ => Finset.sum_congr rfl fun b _ =>
      Finset.sum_congr rfl fun i _ => Finset.sum_congr rfl fun j _ => by ring
  rw [e2, e3, e4, e5, e6]
  ring

/-- Helper: the march keeps every recorded error bound and the carried
bound nonnegative when the residual scaling and every residual evaluation
are nonnegative. -/
theorem rb_solve_march_nonneg (sys : TransientRBSystem) (n : ℕ)
    (hscale : 0 ≤ residual_scaling_numer sys sys.alpha_LB)
    (heps : ∀ u_e mc : ℕ → ℚ, 0 ≤ compute_residual_dual_norm_sq sys n u_e mc)
    (k : ℕ) :
    ∀ st st', rb_solve_march sys n k st = some st' →
      (∀ b ∈ st.error_bound_all_k, 0 ≤ b) →
      0 ≤ st.current_bound →
      ((∀ b ∈ st'.error_bound_all_k, 0 ≤ b) ∧ 0 ≤ st'.current_bound) := by
  induction k with
  | zero =>
      intro st st' h hall hb
      unfold rb_solve_march at h
      simp only [Option.some.injEq] at h
      subst h
      exact ⟨hall, hb⟩
  | succ k ih =>
      intro st st' h hall hb
      unfold rb_solve_march at h
      cases hstep : rb_solve_step sys n st with
      | none => rw [hstep] at h; cases h
      | some st1 =>
          rw [hstep] at h
          have hmarch : rb_solve_march sys n k st1 = some st' := h
          unfold rb_solve_step at hstep
          cases hsol : solveLin n (lhsMatrix sys) (rhsVector sys n st.RB_solution) with
          | none => rw [hsol] at hstep; cases hstep
          | some u =>
              rw [hsol] at hstep
              simp only [Option.some.injEq] at hstep
              subst hstep
              have hbnew : 0 ≤ st.current_bound +
                  residual_scaling_numer sys sys.alpha_LB *
                    compute_residual_dual_norm_sq sys n
                      (eulerStateVec sys.euler_theta st.RB_solution u)
                      (massCoeffVec sys.delta_t st.RB_solution u) :=
                add_nonneg hb (mul_nonneg hscale (heps _ _))
              refine ih _ st' hmarch ?_ hbnew
              intro b hbmem
              simp only [List.mem_append, List.mem_singleton] at hbmem
              cases hbmem with
              | inl hold => exact hall b hold
              | inr hnew => rw [hnew]; exact hbnew

/-- C8: whenever the representor-norm tables are genuine Gram tables of
representor vectors (as the spec describes them) and the step size and
stability lower bound are positive, every entry of error_bound_all_k after
an accepted rb_solve call is nonnegative, as is the returned bound. -/
theorem error_bound_all_k_nonneg (sys : TransientRBSystem) (n dim : ℕ)
    (Fr : ℕ → ℕ → ℚ) (Ar Mr : ℕ → ℕ → ℕ → ℚ)
    (hF : ∀ q q', sys.Fq_representor_norms q q' = innerR dim (Fr q) (Fr q'))
    (hFA : ∀ q a i, sys.Fq_Aq_representor_norms q a i = innerR dim (Fr q) (Ar a i))
    (hAA : ∀ a a' i j, sys.Aq_Aq_representor_norms a a' i j = innerR dim (Ar a i) (Ar a' j))
    (hFM : ∀ q m i, sys.Fq_Mq_representor_norms q m i = innerR dim (Fr q) (Mr m i))
    (hAM : ∀ a m i j, sys.Aq_Mq_representor_norms a m i j = innerR dim (Ar a i) (Mr m j))
    (hMM : ∀ m m' i j, sys.Mq_Mq_representor_norms m m' i j = innerR dim (Mr m i) (Mr m' j))
    (hdt : 0 < sys.delta_t) (halpha : 0 < sys.alpha_LB)
    (st : MarchState) (r : ℚ) (h : rb_solve sys n = some (st, r)) :
    List.Forall (fun b => 0 ≤ b) st.error_bound_all_k ∧ 0 ≤ r := by
  have hscale : 0 ≤ residual_scaling_numer sys sys.alpha_LB := by
    unfold residual_scaling_numer
    exact le_of_lt (div_pos hdt halpha)
  have heps : ∀ u_e mc : ℕ → ℚ, 0 ≤ compute_residual_dual_norm_sq sys n u_e mc := by
    intro u_e mc
    rw [cached_eq_uncached_dual_norm_sq]
    rw [uncached_dual_norm_sq_as_sum_of_squares sys n dim u_e mc Fr Ar Mr
      hF hFA hAA hFM hAM hMM]
    exact sumR_nonneg _ _ fun d => sq_nonneg _
  unfold rb_solve at h
  by_cases hn : 1 ≤ n ∧ n ≤ sys.Nmax
  · rw [if_pos hn] at h
    cases hm : rb_solve_march sys n sys.n_time_steps (initMarchState sys n) with
    | none => rw [hm] at h; cases h
    | some st0 =>
        rw [hm] at h
        simp only [Option.map_some', Option.some.injEq, Prod.mk.injEq] at h
        obtain ⟨hst, hr⟩ := h
        subst hst
        have hinit_all : ∀ b ∈ (initMarchState sys n).error_bound_all_k, 0 ≤ b := by
          intro b hbmem
          simp only [initMarchState, List.mem_singleton] at hbmem
          rw [hbmem]
          exact sq_nonneg _
        have hinit_b : 0 ≤ (initMarchState sys n).current_bound := sq_nonneg _
        have hres := rb_solve_march_nonneg sys n hscale heps sys.n_time_steps
          (initMarchState sys n) st0 hm hinit_all hinit_b
        constructor
        · rw [List.forall_iff_forall_mem]
          exact hres.1
        · rw [← hr]
          exact hres.2
  · rw [if_neg hn] at h; cases h

/-- Witness for C8: on the concrete one-dimensional system with zero
representor vectors, unit step size and unit stability bound, both entries
of the bound history and the returned bound are nonnegative. -/
theorem error_bound_all_k_nonneg_witness :
    List.Forall (fun b => (0:ℚ) ≤ b)
      (MarchState.mk [0] 0 [0, 0] [[0], [0]]).error_bound_all_k ∧ (0:ℚ) ≤ 0 :=
  error_bound_all_k_nonneg tinySys 1 0 (fun _ _ => 0) (fun _ _ _ => 0)
    (fun _ _ _ => 0)
    (fun q q' => by simp [tinySys, innerR, sumR])
    (fun q a i => by simp [tinySys, innerR, sumR])
    (fun a a' i j => by simp [tinySys, innerR, sumR])
    (fun q m i => by simp [tinySys, innerR, sumR])
    (fun a m i j => by simp [tinySys, innerR, sumR])
    (fun m m' i j => by simp [tinySys, innerR, sumR])
    (by norm_num [tinySys]) (by norm_num [tinySys])
    (MarchState.mk [0] 0 [0, 0] [[0], [0]]) 0
    (by
      norm_num [rb_solve, rb_solve_march, rb_solve_step, solveLin, detM, minorM,
        replaceCol, lhsMatrix, rhsVector, reducedMass, reducedStiffness,
        reducedForcing, compute_residual_dual_norm_sq, cache_online_residual_terms,
        eulerStateVec, massCoeffVec, residual_scaling_numer, initMarchState,
        sumR, vget, tinySys, Finset.sum_range_succ, List.range_succ,
        List.range_zero])

/-- Helper: decodeVec reads back exactly what encodeVec wrote and leaves
the remaining stream untouched. -/
theorem decodeVec_round (v r : List ℚ) :
    decodeVec (encodeVec v ++ r) = some (v, r) := by
  have hnum : ((v.length : ℚ)).num.toNat = v.length := by
    simp
  unfold encodeVec decodeVec
  simp only [List.cons_append]
  have hcond : ((v.length : ℚ) = ((((v.length : ℚ)).num.toNat : ℕ) : ℚ)) ∧
      (((v.length : ℚ)).num.toNat ≤ (v ++ r).length) := by
    rw [hnum]
    refine ⟨rfl, ?_⟩
    rw [List.length_append]
    omega
  rw [if_pos hcond, hnum, List.take_left, List.drop_left]

/-- Helper: decodeSeq reads back a mapped-and-flattened sequence of
artifacts when the single-artifact reader reads back its writer. -/
theorem decodeSeq_round {α : Type} (dec : List ℚ → Option (α × List ℚ))
    (enc : α → List ℚ)
    (hdec : ∀ (x : α) (r : List ℚ), dec (enc x ++ r) = some (x, r)) :
    ∀ (xs : List α) (r : List ℚ),
      decodeSeq dec xs.length ((xs.map enc).flatten ++ r) = some (xs, r) := by
  intro xs
  induction xs with
  | nil =>
      intro r
      simp [decodeSeq]
  | cons x xs ih =>
      intro r
      simp only [List.map_cons, List.flatten_cons, List.length_cons]
      unfold decodeSeq
      rw [List.append_assoc, hdec x ((xs.map enc).flatten ++ r)]
      simp [ih r]

/-- Helper: decodeVec2 round trip. -/
theorem decodeVec2_round (m : List (List ℚ)) (r : List ℚ) :
    decodeVec2 (encodeVec2 m ++ r) = some (m, r) := by
  have hnum : ((m.length : ℚ)).num.toNat = m.length := by
    simp
  unfold encodeVec2 decodeVec2
  simp only [List.cons_append]
  have hcond : (m.length : ℚ) = ((((m.length : ℚ)).num.toNat : ℕ) : ℚ) := by
    rw [hnum]
  rw [if_pos hcond, hnum]
  exact decodeSeq_round decodeVec encodeVec decodeVec_round m r

/-- Helper: decodeVec3 round trip. -/
theorem decodeVec3_round (m : List (List (List ℚ))) (r : List ℚ) :
    decodeVec3 (encodeVec3 m ++ r) = some (m, r) := by
  have hnum : ((m.length : ℚ)).num.toNat = m.length := by
    simp
  unfold encodeVec3 decodeVec3
  simp only [List.cons_append]
  have hcond : (m.length : ℚ) = ((((m.length : ℚ)).num.toNat : ℕ) : ℚ) := by
    rw [hnum]
  rw [if_pos hcond, hnum]
  exact decodeSeq_round decodeVec2 encodeVec2 decodeVec2_round m r

/-- Helper: decodeVec4 round trip. -/
theorem decodeVec4_round (m : List (List (List (List ℚ)))) (r : List ℚ) :
    decodeVec4 (encodeVec4 m ++ r) = some (m, r) := by
  have hnum : ((m.length : ℚ)).num.toNat = m.length := by
    simp
  unfold encodeVec4 decodeVec4
  simp only [List.cons_append]
  have hcond : (m.length : ℚ) = ((((m.length : ℚ)).num.toNat : ℕ) : ℚ) := by
    rw [hnum]
  rw [if_pos hcond, hnum]
  exact decodeSeq_round decodeVec3 encodeVec3 decodeVec3_round m r

/-- Helper: a full write followed by a full read reproduces the offline
data exactly. -/
theorem read_write_roundtrip (d : TransientOfflineData) :
    read_offline_data_from_files (write_offline_data_to_files d) = some d := by
  have h7 : decodeVec4 (encodeVec4 d.Aq_Mq_representor_norms) =
      some (d.Aq_Mq_representor_norms, []) := by
    have h := decodeVec4_round d.Aq_Mq_representor_norms []
    rwa [List.append_nil] at h
  unfold write_offline_data_to_files read_offline_data_from_files
  simp only [List.append_assoc]
  simp only [decodeVec2_round, decodeVec3_round, decodeVec_round, h7]

/-- C7: writing the offline data and reading it back into a fresh object
reproduces every persisted quantity exactly, and any rb_solve call on a
system built from the read-back data gives the same result as on a system
built from the original data. -/
theorem offline_data_roundtrip :
    ∀ d : TransientOfflineData,
      read_offline_data_from_files (write_offline_data_to_files d) = some d ∧
      ∀ (p : OnlineParameters) (n : ℕ) (d' : TransientOfflineData),
        read_offline_data_from_files (write_offline_data_to_files d) = some d' →
        rb_solve (toSystem p d') n = rb_solve (toSystem p d) n := by
  intro d
  refine ⟨read_write_roundtrip d, ?_⟩
  intro p n d' h
  rw [read_write_roundtrip d] at h
  simp only [Option.some.injEq] at h
  subst h
  rfl
